import Mathlib

/-!
Verification of the n-back sequence generator (dlecocq/nback).

The development is a shallow embedding of the two Python modules:

* `old.py`  — the complete backtracking generator (class `Nback` with
  `__init__` validation, `set_items` / `add_item` / `backtrack` search,
  `get_types` / `get_stim` / `choose_random_itemtype` helpers);
* `nback.py` — the newer rewrite (its `__init__` validation; its `place`
  method is unfinished scaffolding).

Python machine types map to Lean as follows: Python `int` becomes `Int`;
lists become `List`; the `types_ints` dict becomes a total function
`Int → Int` built by explicit updates (keys that are never inserted map to
`0`, and the code only ever reads keys that were inserted); exceptions
become `Except PyErr`.  The item list and the wordlist are stored with the
most recent Python element first (Python appends and pops at the tail, so
the tail of the Python list is the head of the Lean list); `pyGet` performs
Python-style indexing, including negative indices, against that reversed
representation.  Randomness (`random.choice`) is an oracle `Nat → Nat`
supplying one natural number per placement; the chosen index is the oracle
value reduced modulo the list length, so every concrete random run
corresponds to some oracle.  The unbounded `while` loop of `set_items`
receives a fuel parameter; exhausting the fuel is a distinguished error
that never occurs in the finitary theorems below.
-/

/-- Exceptions raised by the Python code.  `valueError` is the
`ValueError` of the validation code (the spec's `InvalidSpecification`);
`indexError` is Python's `IndexError`; `typeError` is Python's `TypeError`
(raised when a function is called with the wrong number of arguments);
`systemExit` is what `exit()` raises after `add_item` prints its failure
message; `unsatisfiable` is the `UnsatisfiableException` declared by
`nback.py`; `fuelOut` marks exhaustion of the loop fuel in the embedding. -/
inductive PyErr where
  | valueError
  | indexError
  | typeError
  | systemExit
  | unsatisfiable
  | fuelOut
deriving DecidableEq, Repr

/-- One entry of `self.items`: the Python dict
`{'type': t, 'stim': v, 'types_available': l}`. -/
structure Item where
  type : Int
  stim : Int
  avail : List Int
deriving DecidableEq, Repr

/-- The constructor arguments of `Nback.__init__`: n-level, target count,
filler count, the lure dictionary (distance, count) and `max_repeat`.
The lure dictionary is modelled as an association list; an actual Python
dict has pairwise distinct keys, which theorems assume where it matters. -/
structure Spec where
  n : Int
  targets : Int
  fillers : Int
  lures : List (Int × Int)
  max_repeat : Int
deriving DecidableEq, Repr

/-- Pointwise update of a total function, used for dict writes. -/
def upd (f : Int → Int) (k v : Int) : Int → Int :=
  fun x => if x = k then v else f x

/-- Python `dict(pairs)`: later pairs overwrite earlier ones; absent
keys are mapped to `0` (the code never reads an absent key). -/
def dictOf (l : List (Int × Int)) : Int → Int :=
  l.foldl (fun f kv => upd f kv.1 kv.2) (fun _ => 0)

/-- Dict access `lures[k]` for a dict modelled as an association list: value of the
first pair with the given key, `0` if absent. -/
def lookupCount (l : List (Int × Int)) (k : Int) : Int :=
  ((l.find? (fun kv => kv.1 = k)).map Prod.snd).getD 0

/-- Source `self.types_ints = dict(lures.items() + [(FILLER, fillers), (n, targets)])`
(`FILLER` is `0`; the target entry is keyed by the n-level). -/
def initTypes (s : Spec) : Int → Int :=
  dictOf (s.lures ++ [(0, s.fillers), (s.n, s.targets)])

/-- Source `self.seqlength = fillers + targets + sum(lures[key] for key in lures.keys())`. -/
def seqlength (s : Spec) : Int :=
  s.fillers + s.targets + (s.lures.map Prod.snd).sum

/-- Source `self.wordlist = range(fillers); self.wordlist.reverse()`, stored with
the next token to be popped (Python's tail) first. -/
def initWordlist (s : Spec) : List Int :=
  (List.range s.fillers.toNat).map Int.ofNat

/-- The mutable search state of an `Nback` object: `types` is
`self.types_ints`, `rev` is `self.items` most recent first, `wordlist` is
`self.wordlist` with the next token first. -/
structure St where
  types : Int → Int
  rev : List Item
  wordlist : List Int

/-- Initial state set up by `__init__`. -/
def initSt (s : Spec) : St :=
  ⟨initTypes s, [], initWordlist s⟩

/-- Python list indexing `items[i]` (negative indices count from the end)
against the reversed representation: the Lean head is the Python tail. -/
def pyGet (rev : List Item) (i : Int) : Except PyErr Item :=
  if 0 ≤ i then
    if h : i.toNat < rev.length then
      Except.ok (rev.get ⟨rev.length - 1 - i.toNat, by omega⟩)
    else Except.error .indexError
  else
    match rev.get? (-i - 1).toNat with
    | some a => Except.ok a
    | none => Except.error .indexError

/-- Source `Nback.items_different(index1, index2)`. -/
def items_different (rev : List Item) (i1 i2 : Int) : Except PyErr Bool := do
  let a ← pyGet rev i1
  let b ← pyGet rev i2
  pure (decide (¬ (a.stim = b.stim)))

/-- Source `Nback.repeat_limit_reached`.  For `max_repeat ≥ 2` with enough items
the source evaluates `self.items_different(range(-self.max_repeat, 0))`,
passing one list where `items_different` requires two positional
arguments, so Python raises `TypeError` at that call. -/
def repeat_limit_reached (s : Spec) (rev : List Item) : Except PyErr Bool :=
  if s.max_repeat = 0 then Except.ok false
  else if (rev.length : Int) < s.max_repeat then Except.ok false
  else if s.max_repeat = 1 then Except.ok true
  else Except.error .typeError

/-- The repeat-limit admissibility check shared by the target and lure
clauses of `Nback.get_types`: when `repeat_limit_reached()` holds, the
candidate with back-distance `j` is admissible only if the stimulus it
would copy differs from the most recent one (`items_different(-1, -j)`). -/
def tightCheck (s : Spec) (rev : List Item) (j : Int) : Except PyErr Bool := do
  let tight ← repeat_limit_reached s rev
  if tight then items_different rev (-1) (-j) else pure true

/-- The n-back difference check of the lure clause of `Nback.get_types`:
when the n-back reference exists, `items_different(-n, -d)`. -/
def nbCheck (s : Spec) (rev : List Item) (d : Int) : Except PyErr Bool :=
  if s.n ≤ (rev.length : Int) then items_different rev (-s.n) (-d)
  else pure true

/-- The target clause of `Nback.get_types`. -/
def targetEntry (s : Spec) (types : Int → Int) (rev : List Item) :
    Except PyErr (List Int) :=
  if 0 < types s.n ∧ s.n ≤ (rev.length : Int) then do
    let avail ← tightCheck s rev s.n
    pure (if avail then [s.n] else [])
  else pure []

/-- The body of the lure loop of `Nback.get_types` for one lure level:
the n-back difference check, then the repeat-limit check, in the order
the source evaluates them. -/
def lureEntry (s : Spec) (types : Int → Int) (rev : List Item) (d : Int) :
    Except PyErr (List Int) :=
  if 0 < types d ∧ d ≤ (rev.length : Int) then do
    let c1 ← nbCheck s rev d
    let c2 ← tightCheck s rev d
    pure (if c1 && c2 then [d] else [])
  else pure []

/-- The lure loop of `Nback.get_types`, over the lure dict in order. -/
def lureEntries (s : Spec) (types : Int → Int) (rev : List Item) :
    List (Int × Int) → Except PyErr (List Int)
  | [] => pure []
  | kv :: rest => do
      let e ← lureEntry s types rev kv.1
      let es ← lureEntries s types rev rest
      pure (e ++ es)

/-- Source `Nback.get_types`: filler clause, then target clause, then lure loop. -/
def get_types (s : Spec) (types : Int → Int) (rev : List Item) :
    Except PyErr (List Int) := do
  let fl := if 0 < types 0 then [0] else ([] : List Int)
  let tg ← targetEntry s types rev
  let ls ← lureEntries s types rev s.lures
  pure (fl ++ tg ++ ls)

/-- The expansion inside `Nback.choose_random_itemtype`: each available
type repeated as many times as its remaining count. -/
def expand (types : Int → Int) : List Int → List Int
  | [] => []
  | t :: rest => List.replicate (types t).toNat t ++ expand types rest

/-- Model of `random.choice(l)`: the oracle value modulo the length selects the
element; choosing from an empty list raises `IndexError` as in Python. -/
def pyChoice (o : Nat) (l : List Int) : Except PyErr Int :=
  match l with
  | [] => Except.error .indexError
  | a :: rest => Except.ok ((a :: rest).getD (o % (a :: rest).length) 0)

/-- Source `Nback.get_stim`: a filler pops the next unused token off the
wordlist, any other type copies the stimulus `type` positions back.
Returns the stimulus together with the updated wordlist. -/
def get_stim (rev : List Item) (wl : List Int) (t : Int) :
    Except PyErr (Int × List Int) :=
  if t = 0 then
    match wl with
    | [] => Except.error .indexError
    | v :: wl' => Except.ok (v, wl')
  else (pyGet rev (-t)).map (fun it => (it.stim, wl))

/-- Source `Nback.backtrack`: pop the most recent item, restore its type count,
return a filler's stimulus to the wordlist and remove the item's type from
its stored candidate list.  Popping an empty list is `IndexError`. -/
def backtrack (st : St) : Except PyErr (St × List Int) :=
  match st.rev with
  | [] => Except.error .indexError
  | it :: rest =>
      Except.ok
        (⟨upd st.types it.type (st.types it.type + 1), rest,
          if it.type = 0 then it.stim :: st.wordlist else st.wordlist⟩,
         it.avail.erase it.type)

/-- The `while self.currentItem['types_available'] == []` loop of
`Nback.add_item`: repeat `backtrack` until the candidate list is nonempty;
when `backtrack` raises `IndexError` the source prints a message and calls
`exit()`, which raises `SystemExit`. -/
def btLoop (s : Spec) :
    List Item → (Int → Int) → List Int → List Int →
    Except PyErr ((Int → Int) × List Int × List Int × List Item)
  | rev, types, wl, avail =>
    if avail.isEmpty then
      match rev with
      | [] => Except.error .systemExit
      | it :: rest =>
          btLoop s rest (upd types it.type (types it.type + 1))
            (if it.type = 0 then it.stim :: wl else wl)
            (it.avail.erase it.type)
    else Except.ok (types, wl, avail, rev)

/-- Source `Nback.add_item`: compute the candidate types, backtrack while the
candidate list is empty, pick a weighted random type, decrement its count,
compute the stimulus and append the item. -/
def add_item (s : Spec) (o : Nat) (st : St) : Except PyErr St := do
  let avail0 ← get_types s st.types st.rev
  let (types1, wl1, avail, rev1) ← btLoop s st.rev st.types st.wordlist avail0
  let ctype ← pyChoice o (expand types1 avail)
  let types2 := upd types1 ctype (types1 ctype - 1)
  let (stim, wl2) ← get_stim rev1 wl1 ctype
  pure ⟨types2, Item.mk ctype stim avail :: rev1, wl2⟩

/-- Source `Nback.set_items`: `while len(self.items) < self.seqlength: self.add_item()`,
with fuel bounding the number of iterations of the embedding. -/
def set_items (s : Spec) (o : Nat → Nat) : Nat → St → Except PyErr St
  | 0, st =>
      if (st.rev.length : Int) < seqlength s then Except.error .fuelOut
      else Except.ok st
  | fuel + 1, st =>
      if (st.rev.length : Int) < seqlength s then
        (add_item s (o fuel) st).bind (set_items s o fuel)
      else Except.ok st

/-- Python `min(xs + [a])`. -/
def foldMin (xs : List Int) (a : Int) : Int := xs.foldr min a

/-- Python `max(xs + [a])`. -/
def foldMax (xs : List Int) (a : Int) : Int := xs.foldr max a

/-- The validation in `old.py`'s `Nback.__init__`, checks in source order.
`max([i + lures[i] for i in lures])` on an empty lure dict raises
`ValueError` in Python, just as a failed check does. -/
def oldValidate (s : Spec) : Except PyErr Unit :=
  if s.n < 1 then Except.error .valueError
  else if s.targets < 0 ∨ s.fillers < 0 ∨ s.lures.any (fun kv => kv.2 < 0) then
    Except.error .valueError
  else if s.fillers < foldMin (s.lures.map Prod.fst) s.n then
    Except.error .valueError
  else if s.lures.any (fun kv => kv.1 < 0) then Except.error .valueError
  else if s.max_repeat < 0 then Except.error .valueError
  else if s.max_repeat = 1 ∧ s.n = 1 then Except.error .valueError
  else if s.max_repeat = 1 ∧ (s.lures.any (fun kv => kv.1 = 1))
          ∧ 0 < lookupCount s.lures 1 then Except.error .valueError
  else
    match s.lures with
    | [] => Except.error .valueError
    | kv :: rest =>
        if seqlength s < foldMax (rest.map (fun kv => kv.1 + kv.2)) (kv.1 + kv.2)
        then Except.error .valueError
        else Except.ok ()

/-- Model of `lures.get(1, 1)` of `nback.py`: dict lookup with default `1`. -/
def lookupGetD (l : List (Int × Int)) (k d : Int) : Int :=
  ((l.find? (fun kv => kv.1 = k)).map Prod.snd).getD d

/-- The validation in `nback.py`'s `Nback.__init__`, checks in source
order.  `min` of an empty sequence raises `ValueError` in Python;
`targets < 0` and `fillers < 0` short-circuit before `min(lures.values())`
is evaluated. -/
def nbackValidate (s : Spec) : Except PyErr Unit :=
  if s.n < 1 then Except.error .valueError
  else if s.targets < 0 ∨ s.fillers < 0 then Except.error .valueError
  else
    match s.lures with
    | [] => Except.error .valueError
    | kv :: rest =>
        if foldMin (rest.map Prod.snd) kv.2 < 0 then Except.error .valueError
        else if s.fillers < foldMin (s.lures.map Prod.fst) s.n then
          Except.error .valueError
        else if foldMin (rest.map Prod.fst) kv.1 ≤ 0 then Except.error .valueError
        else if s.max_repeat < 0 then Except.error .valueError
        else if s.max_repeat = 1 ∧ s.n = 1 then Except.error .valueError
        else if s.max_repeat = 1 ∧ 0 < lookupGetD s.lures 1 1 then
          Except.error .valueError
        else if seqlength s <
            foldMax (rest.map (fun kv => kv.1 + kv.2)) (kv.1 + kv.2) then
          Except.error .valueError
        else Except.ok ()

/-- Number of placed items of a given type (as a Python int). -/
def countT (rev : List Item) (k : Int) : Int :=
  (rev.countP (fun it => it.type = k) : Int)

/-- The keys of `self.types_ints` before dict collapsing: `FILLER` (0),
the n-level (targets) and every lure level. -/
def keyList (s : Spec) : List Int :=
  0 :: s.n :: s.lures.map Prod.fst

/-- The key set of the type multiset. -/
def keysF (s : Spec) : Finset Int := (keyList s).toFinset

/-- Stimulus of the item `k+1` positions before the current position
(`rev` is most recent first, so this is just position `k` of `rev`). -/
def stimAt (rev : List Item) (k : Nat) : Option Int :=
  (rev.get? k).map Item.stim

/-- What membership of a nonzero type in a `get_types` result guarantees
about the prefix it was computed against: the backward reference exists,
a non-target differs from the n-back stimulus when that exists, and when
the repeat limit is tight the stimulus differs from the previous one. -/
def condOK (s : Spec) (pref : List Item) (t : Int) : Prop :=
  t ≠ 0 →
    0 < t ∧ t.toNat ≤ pref.length ∧
    (t ≠ s.n → s.n.toNat ≤ pref.length →
      stimAt pref (s.n.toNat - 1) ≠ stimAt pref (t.toNat - 1)) ∧
    (repeat_limit_reached s pref = Except.ok true →
      stimAt pref 0 ≠ stimAt pref (t.toNat - 1))

/-- Stimuli of the filler items (most recent first). -/
def fillerStims (rev : List Item) : List Int :=
  (rev.filter (fun it => it.type = 0)).map Item.stim

/-- Invariant of one placed item `it`, with `post` the items placed after
it and `pref` the items placed before it: its type was drawn from its
stored candidate list; a nonzero type copies the stimulus found `type`
positions back; and every stored candidate had a positive remaining count
when the position was filled (the current count plus everything placed
from this position on) and satisfied the `get_types` side conditions. -/
def ItemInv (s : Spec) (types : Int → Int) (post : List Item) (it : Item)
    (pref : List Item) : Prop :=
  it.type ∈ it.avail ∧
  (it.type ≠ 0 → 0 < it.type ∧ it.type.toNat ≤ pref.length ∧
      stimAt pref (it.type.toNat - 1) = some it.stim) ∧
  ∀ t ∈ it.avail,
    t ∈ keyList s ∧ 0 < types t + countT (it :: post) t ∧ condOK s pref t

/-- The master invariant of the search state: counts are nonnegative,
counts plus placements conserve the initial multiset pointwise, the
wordlist and the placed filler stimuli partition the initial wordlist,
and every placed item satisfies `ItemInv`. -/
def SearchInv (s : Spec) (types : Int → Int) (rev : List Item) (wl : List Int) :
    Prop :=
  (∀ k, 0 ≤ types k) ∧
  (∀ k, types k + countT rev k = initTypes s k) ∧
  ((wl : Multiset Int) + (fillerStims rev : Multiset Int)
      = (initWordlist s : Multiset Int)) ∧
  ∀ post it pref, rev = post ++ it :: pref → ItemInv s types post it pref

/-- The master invariant packaged over a state. -/
def InvSt (s : Spec) (st : St) : Prop :=
  SearchInv s st.types st.rev st.wordlist

/-- Invariant of a candidate list for the position about to be filled:
every candidate is a known type with a positive remaining count that
satisfies the `get_types` side conditions against the current items. -/
def AvailInv (s : Spec) (types : Int → Int) (rev : List Item)
    (avail : List Int) : Prop :=
  ∀ t ∈ avail, t ∈ keyList s ∧ 0 < types t ∧ condOK s rev t

/-- Facts `old.py`'s validation establishes about an accepted spec. -/
def Accepted (s : Spec) : Prop :=
  1 ≤ s.n ∧ 0 ≤ s.targets ∧ 0 ≤ s.fillers ∧
  (∀ kv ∈ s.lures, 0 ≤ kv.1 ∧ 0 ≤ kv.2) ∧ 0 ≤ s.max_repeat

/-- The counting state claimed by C10: nonnegative remaining counts, and
remaining counts plus placements add up to the derived length. -/
def CountState (s : Spec) (st : St) : Prop :=
  (∀ k ∈ keyList s, 0 ≤ st.types k) ∧
  (∑ k ∈ keysF s, st.types k) + (st.rev.length : Int) = seqlength s

/-- An accepted spec on which the search must exhaust all candidates:
two targets but only one filler at level 2, so position 1 has no
candidate type (`Nback(2, 2, 1)` with the default `lures = {1: 0}`). -/
def specExhausted : Spec := ⟨2, 2, 1, [(1, 0)], 0⟩

/-- The state after the single possible placement on `specExhausted`. -/
def stE1 : St :=
  ⟨upd (initTypes specExhausted) 0 (initTypes specExhausted 0 - 1),
   [Item.mk 0 0 [0]], []⟩

/-- An accepted spec with `max_repeat = 2`: `Nback(2, 1, 2, {1: 0}, 2)`.
Both fillers must be placed first; at position 2 `get_types` evaluates
`repeat_limit_reached`, which reaches the broken `items_different` call. -/
def specRepeat : Spec := ⟨2, 1, 2, [(1, 0)], 2⟩

/-- State after the first (forced) filler placement on `specRepeat`. -/
def stR1 : St :=
  ⟨upd (initTypes specRepeat) 0 (initTypes specRepeat 0 - 1),
   [Item.mk 0 0 [0]], [1]⟩

/-- State after the second (forced) filler placement on `specRepeat`. -/
def stR2 : St :=
  ⟨upd stR1.types 0 (stR1.types 0 - 1), Item.mk 0 1 [0] :: stR1.rev, []⟩

/-- Request `Nback(2, 1, 2, {2: 1})` with `max_repeat = 1` and no distance-1
lures requested (the lure dict has no key 1). -/
def specNoOneLure : Spec := ⟨2, 1, 2, [(2, 1)], 1⟩

/-- Request `Nback(2, 1, 2, {2: 1})` with `max_repeat = 0`: a request whose
lure distance equals the n-level. -/
def specLureEqN : Spec := ⟨2, 1, 2, [(2, 1)], 0⟩

/-- Request `Nback(1, 0, 1, {0: 1})`: a lure distance of exactly 0. -/
def specZeroLure : Spec := ⟨1, 0, 1, [(0, 1)], 0⟩

/-- Request `Nback(2, 1, 2, {1: 1})`: a small accepted spec whose generation
(with the all-zeros oracle) succeeds and places fillers, a target and a
lure; used by the witnesses. -/
def specW : Spec := ⟨2, 1, 2, [(1, 1)], 0⟩

theorem exc_ok_bind {α β : Type} (a : α) (f : α → Except PyErr β) :
    (Except.ok a >>= f) = f a := rfl

theorem exc_error_bind {α β : Type} (e : PyErr) (f : α → Except PyErr β) :
    ((Except.error e : Except PyErr α) >>= f) = Except.error e := rfl

theorem exc_pure {α : Type} (a : α) : (pure a : Except PyErr α) = Except.ok a :=
  rfl

theorem exc_bind_eq_ok {α β : Type} {e : Except PyErr α}
    {f : α → Except PyErr β} {v : β} :
    (e >>= f) = Except.ok v ↔ ∃ a, e = Except.ok a ∧ f a = Except.ok v := by
  cases e with
  | ok a => simp [exc_ok_bind]
  | error err => simp [exc_error_bind]

theorem upd_self (f : Int → Int) (k v : Int) : upd f k v k = v := by
  simp [upd]

theorem upd_ne (f : Int → Int) {k v x : Int} (h : x ≠ k) : upd f k v x = f x := by
  simp [upd, h]

theorem countT_nil (k : Int) : countT [] k = 0 := rfl

theorem countT_cons (it : Item) (rev : List Item) (k : Int) :
    countT (it :: rev) k = countT rev k + (if it.type = k then 1 else 0) := by
  by_cases h : it.type = k <;> simp [countT, List.countP_cons, h]

theorem countT_nonneg (rev : List Item) (k : Int) : 0 ≤ countT rev k := by
  simp [countT]

theorem pyChoice_mem {o : Nat} {l : List Int} {t : Int}
    (h : pyChoice o l = Except.ok t) : t ∈ l := by
  cases l with
  | nil => exact absurd h (by simp [pyChoice])
  | cons a rest =>
    simp only [pyChoice, Except.ok.injEq] at h
    subst h
    have hlt : o % (a :: rest).length < (a :: rest).length :=
      Nat.mod_lt _ (by simp)
    rw [List.getD_eq_getElem?_getD, List.getElem?_eq_getElem hlt]
    exact List.getElem_mem hlt

theorem pyChoice_replicate (o k : Nat) (a : Int) :
    pyChoice o (List.replicate (k + 1) a) = Except.ok a := by
  show Except.ok ((List.replicate (k + 1) a).getD
      (o % (List.replicate (k + 1) a).length) 0) = Except.ok a
  rw [List.getD_eq_getElem?_getD, List.getElem?_replicate,
    if_pos (by simpa using Nat.mod_lt o (Nat.succ_pos k))]
  rfl

theorem mem_expand {types : Int → Int} {l : List Int} {t : Int}
    (h : t ∈ expand types l) : t ∈ l := by
  induction l with
  | nil => simp [expand] at h
  | cons a rest ih =>
    simp only [expand, List.mem_append] at h
    rcases h with h | h
    · exact (List.eq_of_mem_replicate h) ▸ List.mem_cons_self a rest
    · exact List.mem_cons_of_mem _ (ih h)

theorem pyGet_neg {rev : List Item} {t : Int} (ht : 0 < t) :
    pyGet rev (-t) =
      match rev.get? (t.toNat - 1) with
      | some a => Except.ok a
      | none => Except.error .indexError := by
  unfold pyGet
  rw [if_neg (by omega : ¬ (0:Int) ≤ -t)]
  have h : (-(-t) - 1).toNat = t.toNat - 1 := by omega
  rw [h]

theorem pyGet_neg_ok {rev : List Item} {t : Int} (ht : 0 < t) {a : Item} :
    pyGet rev (-t) = Except.ok a ↔ rev.get? (t.toNat - 1) = some a := by
  rw [pyGet_neg ht]
  cases h : rev.get? (t.toNat - 1) <;> simp

theorem items_different_true {rev : List Item} {t1 t2 : Int}
    (h1 : 0 < t1) (h2 : 0 < t2)
    (h : items_different rev (-t1) (-t2) = Except.ok true) :
    stimAt rev (t1.toNat - 1) ≠ stimAt rev (t2.toNat - 1) := by
  unfold items_different at h
  rw [exc_bind_eq_ok] at h
  obtain ⟨a, ha, h⟩ := h
  rw [exc_bind_eq_ok] at h
  obtain ⟨b, hb, h⟩ := h
  rw [exc_pure] at h
  have hne : a.stim ≠ b.stim := by
    intro hc
    simp [hc] at h
  rw [pyGet_neg_ok h1] at ha
  rw [pyGet_neg_ok h2] at hb
  have ha' : stimAt rev (t1.toNat - 1) = some a.stim := by
    unfold stimAt; rw [ha]; rfl
  have hb' : stimAt rev (t2.toNat - 1) = some b.stim := by
    unfold stimAt; rw [hb]; rfl
  rw [ha', hb']
  exact fun hc => hne (Option.some.inj hc)

theorem tightCheck_sound {s : Spec} {rev : List Item} {j : Int}
    (hj : 0 < j) (h : tightCheck s rev j = Except.ok true)
    (hrep : repeat_limit_reached s rev = Except.ok true) :
    stimAt rev 0 ≠ stimAt rev (j.toNat - 1) := by
  unfold tightCheck at h
  rw [exc_bind_eq_ok] at h
  obtain ⟨tight, htight, h⟩ := h
  rw [hrep] at htight
  have htt : tight = true := (Except.ok.inj htight).symm
  subst htt
  rw [if_pos rfl] at h
  have hd := @items_different_true rev 1 j (by omega) hj h
  simpa using hd

theorem nbCheck_sound {s : Spec} {rev : List Item} {d : Int}
    (hn : 1 ≤ s.n) (hd : 0 < d) (h : nbCheck s rev d = Except.ok true)
    (hlen : s.n.toNat ≤ rev.length) :
    stimAt rev (s.n.toNat - 1) ≠ stimAt rev (d.toNat - 1) := by
  unfold nbCheck at h
  rw [if_pos (by omega : s.n ≤ (rev.length : Int))] at h
  exact items_different_true (by omega) hd h

theorem targetEntry_sound {s : Spec} {types : Int → Int} {rev : List Item}
    {l : List Int} (hA : Accepted s)
    (h : targetEntry s types rev = Except.ok l) :
    ∀ t ∈ l, t = s.n ∧ 0 < types s.n ∧ condOK s rev t := by
  unfold targetEntry at h
  by_cases hg : 0 < types s.n ∧ s.n ≤ (rev.length : Int)
  · rw [if_pos hg] at h
    rw [exc_bind_eq_ok] at h
    obtain ⟨av, hav, h⟩ := h
    rw [exc_pure] at h
    intro t ht
    have hl : l = if av then [s.n] else [] := (Except.ok.inj h).symm
    subst hl
    cases av with
    | false => simp at ht
    | true =>
      simp at ht
      subst ht
      refine ⟨rfl, hg.1, ?_⟩
      intro _
      have hn1 := hA.1
      have hg2 := hg.2
      refine ⟨by omega, by omega, fun hne _ => absurd rfl hne, ?_⟩
      intro hrep
      exact tightCheck_sound (by omega) hav hrep
  · rw [if_neg hg, exc_pure] at h
    have hl : l = [] := (Except.ok.inj h).symm
    subst hl
    intro t ht
    simp at ht

theorem lureEntry_sound {s : Spec} {types : Int → Int} {rev : List Item}
    {d : Int} {l : List Int} (hA : Accepted s) (hd : 0 ≤ d)
    (h : lureEntry s types rev d = Except.ok l) :
    ∀ t ∈ l, t = d ∧ 0 < types d ∧ condOK s rev t := by
  unfold lureEntry at h
  by_cases hg : 0 < types d ∧ d ≤ (rev.length : Int)
  · rw [if_pos hg] at h
    rw [exc_bind_eq_ok] at h
    obtain ⟨c1, hc1, h⟩ := h
    rw [exc_bind_eq_ok] at h
    obtain ⟨c2, hc2, h⟩ := h
    rw [exc_pure] at h
    intro t ht
    have hl : l = if c1 && c2 then [d] else [] := (Except.ok.inj h).symm
    subst hl
    by_cases hcc : c1 && c2
    · rw [if_pos hcc] at ht
      simp at ht
      subst ht
      simp only [Bool.and_eq_true] at hcc
      obtain ⟨hc1t, hc2t⟩ := hcc
      subst hc1t
      subst hc2t
      refine ⟨rfl, hg.1, ?_⟩
      intro ht0
      have hdpos : 0 < t := by omega
      refine ⟨hdpos, by omega, ?_, ?_⟩
      · intro _ hnlen
        exact nbCheck_sound hA.1 hdpos hc1 hnlen
      · intro hrep
        exact tightCheck_sound hdpos hc2 hrep
    · rw [if_neg hcc] at ht
      simp at ht
  · rw [if_neg hg, exc_pure] at h
    have hl : l = [] := (Except.ok.inj h).symm
    subst hl
    intro t ht
    simp at ht

theorem lureEntries_sound {s : Spec} {types : Int → Int} {rev : List Item} :
    ∀ {lst : List (Int × Int)} {l : List Int}, Accepted s →
    (∀ kv ∈ lst, 0 ≤ kv.1) →
    lureEntries s types rev lst = Except.ok l →
    ∀ t ∈ l, t ∈ lst.map Prod.fst ∧ 0 < types t ∧ condOK s rev t := by
  intro lst
  induction lst with
  | nil =>
    intro l _ _ h t ht
    simp only [lureEntries] at h
    rw [exc_pure] at h
    have hl : l = [] := (Except.ok.inj h).symm
    subst hl
    simp at ht
  | cons kv rest ih =>
    intro l hA hkeys h t ht
    simp only [lureEntries] at h
    rw [exc_bind_eq_ok] at h
    obtain ⟨e, he, h⟩ := h
    rw [exc_bind_eq_ok] at h
    obtain ⟨es, hes, h⟩ := h
    rw [exc_pure] at h
    have hl : l = e ++ es := (Except.ok.inj h).symm
    subst hl
    rcases List.mem_append.mp ht with hte | hte
    · obtain ⟨heq, hpos, hcond⟩ :=
        lureEntry_sound hA (hkeys kv (List.mem_cons_self _ _)) he t hte
      subst heq
      exact ⟨by simp, hpos, hcond⟩
    · obtain ⟨hmem, hpos, hcond⟩ :=
        ih hA (fun x hx => hkeys x (List.mem_cons_of_mem _ hx)) hes t hte
      exact ⟨by simp [hmem], hpos, hcond⟩

theorem availInv_get_types {s : Spec} {types : Int → Int} {rev : List Item}
    {l : List Int} (hA : Accepted s)
    (h : get_types s types rev = Except.ok l) : AvailInv s types rev l := by
  unfold get_types at h
  rw [exc_bind_eq_ok] at h
  obtain ⟨tg, htg, h⟩ := h
  rw [exc_bind_eq_ok] at h
  obtain ⟨ls, hls, h⟩ := h
  rw [exc_pure] at h
  have hl : l = (if 0 < types 0 then [0] else []) ++ tg ++ ls :=
    (Except.ok.inj h).symm
  subst hl
  intro t ht
  rcases List.mem_append.mp ht with ht' | ht'
  · rcases List.mem_append.mp ht' with ht'' | ht''
    · by_cases h0 : 0 < types 0
      · rw [if_pos h0] at ht''
        simp at ht''
        subst ht''
        exact ⟨by simp [keyList], h0, fun h0' => absurd rfl h0'⟩
      · rw [if_neg h0] at ht''
        simp at ht''
    · obtain ⟨heq, hpos, hcond⟩ := targetEntry_sound hA htg t ht''
      subst heq
      exact ⟨by simp [keyList], hpos, hcond⟩
  · obtain ⟨hmem, hpos, hcond⟩ :=
      lureEntries_sound hA (fun kv hkv => (hA.2.2.2.1 kv hkv).1) hls t ht'
    exact ⟨by simp [keyList, hmem], hpos, hcond⟩

theorem fillerStims_cons_filler {it : Item} (rev : List Item)
    (h : it.type = 0) :
    fillerStims (it :: rev) = it.stim :: fillerStims rev := by
  simp [fillerStims, List.filter_cons, h]

theorem fillerStims_cons_other {it : Item} (rev : List Item)
    (h : it.type ≠ 0) : fillerStims (it :: rev) = fillerStims rev := by
  simp [fillerStims, List.filter_cons, h]

theorem countT_swap (a b : Item) (l : List Item) (k : Int) :
    countT (a :: b :: l) k = countT (b :: a :: l) k := by
  rw [countT_cons, countT_cons, countT_cons, countT_cons]; ring

theorem upd_pop_count (types : Int → Int) (it : Item) (l : List Item)
    (t : Int) :
    upd types it.type (types it.type + 1) t + countT l t
      = types t + countT (it :: l) t := by
  rw [countT_cons]
  by_cases hk : t = it.type
  · subst hk; rw [upd_self, if_pos rfl]; ring
  · rw [upd_ne _ hk, if_neg (fun h => hk h.symm)]; ring

theorem upd_place_count (types : Int → Int) (it : Item) (l : List Item)
    (t : Int) :
    upd types it.type (types it.type - 1) t + countT (it :: l) t
      = types t + countT l t := by
  rw [countT_cons]
  by_cases hk : t = it.type
  · subst hk; rw [upd_self, if_pos rfl]; ring
  · rw [upd_ne _ hk, if_neg (fun h => hk h.symm)]; ring

theorem pop_inv {s : Spec} {types : Int → Int} {it : Item}
    {rest : List Item} {wl : List Int}
    (hInv : SearchInv s types (it :: rest) wl) :
    SearchInv s (upd types it.type (types it.type + 1)) rest
      (if it.type = 0 then it.stim :: wl else wl) ∧
    AvailInv s (upd types it.type (types it.type + 1)) rest it.avail := by
  obtain ⟨hpos, hcons, hmul, hitem⟩ := hInv
  have hhead := hitem [] it rest rfl
  obtain ⟨hmem0, hstim0, havl0⟩ := hhead
  constructor
  · refine ⟨?_, ?_, ?_, ?_⟩
    · intro k
      by_cases hk : k = it.type
      · subst hk; rw [upd_self]; have := hpos it.type; omega
      · rw [upd_ne _ hk]; exact hpos k
    · intro k
      rw [upd_pop_count]
      exact hcons k
    · by_cases h0 : it.type = 0
      · rw [if_pos h0]
        rw [fillerStims_cons_filler rest h0, ← Multiset.cons_coe,
          Multiset.add_cons] at hmul
        rw [← Multiset.cons_coe, Multiset.cons_add]
        exact hmul
      · rw [if_neg h0]
        rw [fillerStims_cons_other rest h0] at hmul
        exact hmul
    · intro post it' pref hdec
      have hdec' : it :: rest = (it :: post) ++ it' :: pref := by
        rw [hdec]; rfl
      obtain ⟨ha, hb, hc⟩ := hitem (it :: post) it' pref hdec'
      refine ⟨ha, hb, ?_⟩
      intro t htav
      obtain ⟨hk, hcnt, hcond⟩ := hc t htav
      refine ⟨hk, ?_, hcond⟩
      rw [upd_pop_count, countT_swap]
      exact hcnt
  · intro t htav
    obtain ⟨hk, hcnt, hcond⟩ := havl0 t htav
    refine ⟨hk, ?_, hcond⟩
    have hup := upd_pop_count types it [] t
    rw [countT_nil] at hup
    omega

theorem btLoop_nonempty (s : Spec) (rev : List Item) (types : Int → Int)
    (wl : List Int) {avail : List Int} (h : avail ≠ []) :
    btLoop s rev types wl avail = Except.ok (types, wl, avail, rev) := by
  rw [btLoop.eq_def]
  cases avail with
  | nil => exact absurd rfl h
  | cons a arest => rfl

theorem btLoop_empty_cons (s : Spec) (it : Item) (rest : List Item)
    (types : Int → Int) (wl : List Int) :
    btLoop s (it :: rest) types wl []
      = btLoop s rest (upd types it.type (types it.type + 1))
          (if it.type = 0 then it.stim :: wl else wl)
          (it.avail.erase it.type) := by
  rw [btLoop.eq_def]
  rfl

theorem btLoop_empty_nil (s : Spec) (types : Int → Int) (wl : List Int) :
    btLoop s [] types wl [] = Except.error .systemExit := by
  rw [btLoop.eq_def]
  rfl

theorem btLoop_ok {s : Spec} :
    ∀ (rev : List Item) (types : Int → Int) (wl avail : List Int)
      {types' : Int → Int} {wl' avail' : List Int} {rev' : List Item},
    SearchInv s types rev wl → AvailInv s types rev avail →
    btLoop s rev types wl avail = Except.ok (types', wl', avail', rev') →
    SearchInv s types' rev' wl' ∧ AvailInv s types' rev' avail' ∧
      avail' ≠ [] ∧ rev'.length ≤ rev.length := by
  intro rev
  induction rev with
  | nil =>
    intro types wl avail types' wl' avail' rev' hInv hAv h
    cases avail with
    | nil => rw [btLoop_empty_nil] at h; cases h
    | cons a arest =>
      rw [btLoop_nonempty s [] types wl (by simp)] at h
      simp only [Except.ok.injEq, Prod.mk.injEq] at h
      obtain ⟨rfl, rfl, rfl, rfl⟩ := h
      exact ⟨hInv, hAv, by simp, Nat.le_refl _⟩
  | cons it rest ih =>
    intro types wl avail types' wl' avail' rev' hInv hAv h
    cases avail with
    | nil =>
      rw [btLoop_empty_cons] at h
      obtain ⟨hInv2, hAv2⟩ := pop_inv hInv
      have hAv2' : AvailInv s (upd types it.type (types it.type + 1)) rest
          (it.avail.erase it.type) :=
        fun t ht => hAv2 t (List.mem_of_mem_erase ht)
      obtain ⟨hI, hA', hne, hlen⟩ := ih _ _ _ hInv2 hAv2' h
      exact ⟨hI, hA', hne, Nat.le_succ_of_le hlen⟩
    | cons a arest =>
      rw [btLoop_nonempty s (it :: rest) types wl (by simp)] at h
      simp only [Except.ok.injEq, Prod.mk.injEq] at h
      obtain ⟨rfl, rfl, rfl, rfl⟩ := h
      exact ⟨hInv, hAv, by simp, Nat.le_refl _⟩

theorem get_stim_filler {rev : List Item} {wl : List Int} {v : Int}
    {wl' : List Int} (h : get_stim rev wl 0 = Except.ok (v, wl')) :
    wl = v :: wl' := by
  unfold get_stim at h
  rw [if_pos rfl] at h
  cases wl with
  | nil => cases h
  | cons a rest =>
    simp only [Except.ok.injEq, Prod.mk.injEq] at h
    obtain ⟨rfl, rfl⟩ := h
    rfl

theorem get_stim_other {rev : List Item} {wl : List Int} {t v : Int}
    {wl' : List Int} (ht : t ≠ 0) (h : get_stim rev wl t = Except.ok (v, wl')) :
    wl' = wl ∧ ∃ a, pyGet rev (-t) = Except.ok a ∧ v = a.stim := by
  unfold get_stim at h
  rw [if_neg ht] at h
  cases hp : pyGet rev (-t) with
  | error e => rw [hp] at h; cases h
  | ok a =>
    rw [hp] at h
    simp only [Except.map, Except.ok.injEq, Prod.mk.injEq] at h
    obtain ⟨rfl, rfl⟩ := h
    exact ⟨rfl, a, rfl, rfl⟩

theorem add_item_inv {s : Spec} {o : Nat} {st st' : St} (hA : Accepted s)
    (hInv : InvSt s st) (h : add_item s o st = Except.ok st') :
    InvSt s st' ∧ st'.rev.length ≤ st.rev.length + 1 := by
  unfold add_item at h
  rw [exc_bind_eq_ok] at h
  obtain ⟨avail0, hav0, h⟩ := h
  rw [exc_bind_eq_ok] at h
  obtain ⟨tup, htup, h⟩ := h
  obtain ⟨types1, wl1, avail, rev1⟩ := tup
  dsimp only at h
  rw [exc_bind_eq_ok] at h
  obtain ⟨ctype, hc, h⟩ := h
  rw [exc_bind_eq_ok] at h
  obtain ⟨pr, hg, h⟩ := h
  obtain ⟨stim, wl2⟩ := pr
  dsimp only at h
  rw [exc_pure] at h
  obtain ⟨hI1, hA1, hne, hlen1⟩ :=
    btLoop_ok st.rev st.types st.wordlist avail0 hInv
      (availInv_get_types hA hav0) htup
  have hst' : st' = ⟨upd types1 ctype (types1 ctype - 1),
      Item.mk ctype stim avail :: rev1, wl2⟩ := (Except.ok.inj h).symm
  subst hst'
  obtain ⟨hpos1, hcons1, hmul1, hitem1⟩ := hI1
  have hctype : ctype ∈ avail := mem_expand (pyChoice_mem hc)
  obtain ⟨hkey, hcnt1, hcond1⟩ := hA1 ctype hctype
  simp only [InvSt, SearchInv]
  refine ⟨⟨?_, ?_, ?_, ?_⟩, ?_⟩
  · intro k
    by_cases hk : k = ctype
    · subst hk; rw [upd_self]; omega
    · rw [upd_ne _ hk]; exact hpos1 k
  · intro k
    have hup := upd_place_count types1 (Item.mk ctype stim avail) rev1 k
    have := hcons1 k
    dsimp at hup
    omega
  · by_cases h0 : ctype = 0
    · subst h0
      have hwl : wl1 = stim :: wl2 := get_stim_filler hg
      subst hwl
      rw [fillerStims_cons_filler rev1 rfl]
      rw [← Multiset.cons_coe, Multiset.cons_add] at hmul1
      rw [← Multiset.cons_coe, Multiset.add_cons]
      exact hmul1
    · obtain ⟨hwl, -⟩ := get_stim_other h0 hg
      subst hwl
      rw [fillerStims_cons_other rev1 h0]
      exact hmul1
  · intro post it' pref hdec
    cases post with
    | nil =>
      simp only [List.nil_append, List.cons.injEq] at hdec
      obtain ⟨h1, h2⟩ := hdec
      subst h2
      subst h1
      refine ⟨hctype, ?_, ?_⟩
      · intro h0
        obtain ⟨hcpos, hclen, -, -⟩ := hcond1 h0
        refine ⟨hcpos, hclen, ?_⟩
        obtain ⟨hwl, a, hget, hstim⟩ := get_stim_other h0 hg
        subst hstim
        rw [pyGet_neg_ok hcpos] at hget
        unfold stimAt
        rw [hget]
        rfl
      · intro t htav
        obtain ⟨hk, hp, hcO⟩ := hA1 t htav
        refine ⟨hk, ?_, hcO⟩
        have hup := upd_place_count types1 (Item.mk ctype stim avail) [] t
        dsimp at hup
        rw [countT_nil] at hup
        omega
    | cons p ps =>
      simp only [List.cons_append, List.cons.injEq] at hdec
      obtain ⟨h1, h2⟩ := hdec
      subst h1
      obtain ⟨ha0, hb0, hc0⟩ := hitem1 ps it' pref h2
      refine ⟨ha0, hb0, ?_⟩
      intro t htav
      obtain ⟨hk, hcnt, hcO⟩ := hc0 t htav
      refine ⟨hk, ?_, hcO⟩
      rw [countT_swap]
      have hup := upd_place_count types1 (Item.mk ctype stim avail)
        (it' :: ps) t
      dsimp at hup
      omega
  · simpa using Nat.succ_le_succ hlen1

theorem set_items_inv {s : Spec} {o : Nat → Nat} (hA : Accepted s) :
    ∀ (fuel : Nat) (st : St), InvSt s st →
    (st.rev.length : Int) ≤ seqlength s →
    ∀ {st' : St}, set_items s o fuel st = Except.ok st' →
    InvSt s st' ∧ (st'.rev.length : Int) = seqlength s := by
  intro fuel
  induction fuel with
  | zero =>
    intro st hInv hlen st' h
    simp only [set_items] at h
    by_cases hc : (st.rev.length : Int) < seqlength s
    · rw [if_pos hc] at h; cases h
    · rw [if_neg hc] at h
      obtain rfl := Except.ok.inj h
      exact ⟨hInv, by omega⟩
  | succ fuel ih =>
    intro st hInv hlen st' h
    simp only [set_items] at h
    by_cases hc : (st.rev.length : Int) < seqlength s
    · rw [if_pos hc] at h
      cases ha : add_item s (o fuel) st with
      | error e =>
        rw [ha] at h
        cases h
      | ok st1 =>
        rw [ha] at h
        rw [show (Except.ok st1).bind (set_items s o fuel)
            = set_items s o fuel st1 from rfl] at h
        obtain ⟨hI1, hl1⟩ := add_item_inv hA hInv ha
        exact ih st1 hI1 (by omega) h
    · rw [if_neg hc] at h
      obtain rfl := Except.ok.inj h
      exact ⟨hInv, by omega⟩

theorem dictOf_nonneg :
    ∀ (l : List (Int × Int)) (f : Int → Int) (k : Int),
    (∀ kv ∈ l, 0 ≤ kv.2) → (∀ x, 0 ≤ f x) →
    0 ≤ (l.foldl (fun f kv => upd f kv.1 kv.2) f) k := by
  intro l
  induction l with
  | nil => intro f k _ hf; exact hf k
  | cons kv rest ih =>
    intro f k hl hf
    exact ih _ k (fun x hx => hl x (List.mem_cons_of_mem _ hx)) (fun x => by
      show 0 ≤ upd f kv.1 kv.2 x
      by_cases hx : x = kv.1
      · subst hx; rw [upd_self]; exact hl kv (List.mem_cons_self _ _)
      · rw [upd_ne _ hx]; exact hf x)

theorem initTypes_nonneg {s : Spec} (hA : Accepted s) :
    ∀ k, 0 ≤ initTypes s k := by
  intro k
  refine dictOf_nonneg _ _ k ?_ (fun _ => le_refl 0)
  intro kv hkv
  rcases List.mem_append.mp hkv with hkv | hkv
  · exact (hA.2.2.2.1 kv hkv).2
  · simp at hkv
    rcases hkv with h | h <;> rw [h]
    · exact hA.2.2.1
    · exact hA.2.1

theorem initSt_inv {s : Spec} (hA : Accepted s) : InvSt s (initSt s) := by
  simp only [InvSt, SearchInv, initSt]
  refine ⟨initTypes_nonneg hA, ?_, ?_, ?_⟩
  · intro k
    rw [countT_nil]
    omega
  · simp [fillerStims]
  · intro post it pref hdec
    exact absurd hdec (by simp)

theorem accepted_of_oldValidate {s : Spec}
    (h : oldValidate s = Except.ok ()) : Accepted s := by
  unfold oldValidate at h
  by_cases h1 : s.n < 1
  · rw [if_pos h1] at h; cases h
  rw [if_neg h1] at h
  by_cases h2 : s.targets < 0 ∨ s.fillers < 0
      ∨ s.lures.any (fun kv => kv.2 < 0)
  · rw [if_pos h2] at h; cases h
  rw [if_neg h2] at h
  by_cases h3 : s.fillers < foldMin (s.lures.map Prod.fst) s.n
  · rw [if_pos h3] at h; cases h
  rw [if_neg h3] at h
  by_cases h4 : s.lures.any (fun kv => kv.1 < 0)
  · rw [if_pos h4] at h; cases h
  rw [if_neg h4] at h
  by_cases h5 : s.max_repeat < 0
  · rw [if_pos h5] at h; cases h
  refine ⟨by omega, ?_, ?_, ?_, by omega⟩
  · have : ¬ s.targets < 0 := fun hx => h2 (Or.inl hx)
    omega
  · have : ¬ s.fillers < 0 := fun hx => h2 (Or.inr (Or.inl hx))
    omega
  · intro kv hkv
    constructor
    · by_contra hneg
      exact h4 (List.any_eq_true.mpr ⟨kv, hkv, by simp; omega⟩)
    · by_contra hneg
      exact h2 (Or.inr (Or.inr (List.any_eq_true.mpr ⟨kv, hkv, by simp; omega⟩)))

theorem stim_bridge {rev : List Item} {i k m : Nat} (hi : i < rev.length)
    (hk : k = rev.length - 1 - i) (hm : m < i) :
    stimAt (rev.drop (k + 1)) m = (rev.reverse.get? (i - 1 - m)).map Item.stim := by
  unfold stimAt
  rw [List.get?_eq_getElem?, List.get?_eq_getElem?]
  rw [List.getElem?_drop]
  rw [List.getElem?_reverse (by omega)]
  have hidx : k + 1 + m = rev.length - 1 - (i - 1 - m) := by omega
  rw [hidx]

theorem forward_item {s : Spec} {types : Int → Int} {rev : List Item}
    {wl : List Int} (hn : 1 ≤ s.n) (hInv : SearchInv s types rev wl)
    {i : Nat} {it : Item} (h : rev.reverse.get? i = some it)
    (h0 : it.type ≠ 0) :
    0 < it.type ∧ it.type.toNat ≤ i ∧
    (rev.reverse.get? (i - it.type.toNat)).map Item.stim = some it.stim ∧
    (it.type ≠ s.n → s.n.toNat ≤ i →
      (rev.reverse.get? (i - s.n.toNat)).map Item.stim ≠ some it.stim) := by
  have hi : i < rev.length := by
    obtain ⟨hlt, -⟩ := List.get?_eq_some.mp h
    simpa using hlt
  set k := rev.length - 1 - i with hk
  have hk1 : k < rev.length := by omega
  have hrevk : rev.get? k = some it := by
    rw [List.get?_eq_getElem?] at h
    rw [List.getElem?_reverse hi] at h
    rw [List.get?_eq_getElem?]
    exact h
  have hgetk : rev[k] = it := by
    have := List.getElem?_eq_getElem hk1
    rw [List.get?_eq_getElem?] at hrevk
    rw [this] at hrevk
    exact Option.some.inj hrevk
  have hdec : rev = rev.take k ++ it :: rev.drop (k + 1) := by
    have h1 := List.take_append_drop k rev
    rw [List.drop_eq_getElem_cons hk1, hgetk] at h1
    exact h1.symm
  obtain ⟨hmem, hself, havl⟩ := hInv.2.2.2 (rev.take k) it (rev.drop (k + 1)) hdec
  have hpl : (rev.drop (k + 1)).length = i := by
    rw [List.length_drop]
    omega
  obtain ⟨htpos, htlen, hstim⟩ := hself h0
  rw [hpl] at htlen
  have htn1 : 1 ≤ it.type.toNat := by omega
  have hstimF : (rev.reverse.get? (i - it.type.toNat)).map Item.stim
      = some it.stim := by
    rw [← hstim, stim_bridge hi hk (by omega : it.type.toNat - 1 < i)]
    have : i - 1 - (it.type.toNat - 1) = i - it.type.toNat := by omega
    rw [this]
  refine ⟨htpos, htlen, hstimF, ?_⟩
  intro hne hnlen
  obtain ⟨-, -, hdiff, -⟩ := (havl it.type hmem).2.2 h0
  have hd := hdiff hne (by omega)
  rw [stim_bridge hi hk (by omega : s.n.toNat - 1 < i)] at hd
  rw [stim_bridge hi hk (by omega : it.type.toNat - 1 < i)] at hd
  have e1 : i - 1 - (s.n.toNat - 1) = i - s.n.toNat := by omega
  have e2 : i - 1 - (it.type.toNat - 1) = i - it.type.toNat := by omega
  rw [e1, e2] at hd
  rw [← hstimF]
  exact hd

theorem initWordlist_nodup (s : Spec) : (initWordlist s).Nodup :=
  (List.nodup_range _).map (fun _ _ h => Int.ofNat_inj.mp h)

theorem fillerStims_nodup {s : Spec} {types : Int → Int} {rev : List Item}
    {wl : List Int} (hInv : SearchInv s types rev wl) :
    (fillerStims rev).Nodup := by
  have hmul := hInv.2.2.1
  have hle : (fillerStims rev : Multiset Int)
      ≤ (initWordlist s : Multiset Int) := by
    rw [← hmul]
    exact Multiset.le_add_left _ _
  have hnd := Multiset.nodup_of_le hle
    ((Multiset.coe_nodup).mpr (initWordlist_nodup s))
  exact (Multiset.coe_nodup).mp hnd

theorem types_in_keys {s : Spec} {types : Int → Int} {rev : List Item}
    {wl : List Int} (hInv : SearchInv s types rev wl) :
    ∀ it ∈ rev, it.type ∈ keyList s := by
  intro it hit
  obtain ⟨post, pref, hdec⟩ := List.append_of_mem hit
  obtain ⟨hmem, -, havl⟩ := hInv.2.2.2 post it pref hdec
  exact (havl it.type hmem).1

theorem sum_countT {S : Finset Int} :
    ∀ (rev : List Item), (∀ it ∈ rev, it.type ∈ S) →
    ∑ k ∈ S, countT rev k = (rev.length : Int) := by
  intro rev
  induction rev with
  | nil => intro _; simp [countT_nil]
  | cons it rest ih =>
    intro hmem
    rw [Finset.sum_congr rfl (fun k _ => countT_cons it rest k)]
    rw [Finset.sum_add_distrib]
    rw [ih (fun x hx => hmem x (List.mem_cons_of_mem _ hx))]
    rw [Finset.sum_ite_eq S it.type (fun _ => (1 : Int))]
    rw [if_pos (hmem it (List.mem_cons_self _ _))]
    simp [List.length_cons]

theorem foldl_upd_congr :
    ∀ (l : List (Int × Int)) (f g : Int → Int) (k : Int), f k = g k →
    l.foldl (fun f kv => upd f kv.1 kv.2) f k
      = l.foldl (fun f kv => upd f kv.1 kv.2) g k := by
  intro l
  induction l with
  | nil => intro f g k h; exact h
  | cons kv rest ih =>
    intro f g k h
    exact ih _ _ k (by
      show upd f kv.1 kv.2 k = upd g kv.1 kv.2 k
      by_cases hk : k = kv.1
      · subst hk; rw [upd_self, upd_self]
      · rw [upd_ne _ hk, upd_ne _ hk]; exact h)

theorem foldl_upd_not_mem :
    ∀ (l : List (Int × Int)) (f : Int → Int) (k : Int),
    k ∉ l.map Prod.fst →
    l.foldl (fun f kv => upd f kv.1 kv.2) f k = f k := by
  intro l
  induction l with
  | nil => intro f k _; rfl
  | cons kv rest ih =>
    intro f k hk
    have hk1 : k ≠ kv.1 := by
      intro he; exact hk (by simp [he])
    have hk2 : k ∉ rest.map Prod.fst := by
      intro he; exact hk (by simp [he])
    have := ih (upd f kv.1 kv.2) k hk2
    rw [upd_ne _ hk1] at this
    exact this

theorem dictOf_cons_ne {kv : Int × Int} {l : List (Int × Int)} {k : Int}
    (hk : k ≠ kv.1) : dictOf (kv :: l) k = dictOf l k := by
  unfold dictOf
  exact foldl_upd_congr l _ _ k (upd_ne _ hk)

theorem dictOf_cons_self {kv : Int × Int} {l : List (Int × Int)}
    (h : kv.1 ∉ l.map Prod.fst) : dictOf (kv :: l) kv.1 = kv.2 := by
  unfold dictOf
  have := foldl_upd_not_mem l (upd (fun _ => 0) kv.1 kv.2) kv.1 h
  rw [upd_self] at this
  exact this

theorem sum_dictOf :
    ∀ (l : List (Int × Int)), (l.map Prod.fst).Nodup →
    ∑ k ∈ (l.map Prod.fst).toFinset, dictOf l k = (l.map Prod.snd).sum := by
  intro l
  induction l with
  | nil => intro _; simp
  | cons kv rest ih =>
    intro hnd
    rw [List.map_cons] at hnd
    obtain ⟨hnotin, hnd'⟩ := List.nodup_cons.mp hnd
    simp only [List.map_cons, List.toFinset_cons]
    rw [Finset.sum_insert (by simpa using hnotin)]
    rw [dictOf_cons_self hnotin]
    rw [Finset.sum_congr rfl (fun k hk => dictOf_cons_ne (by
      intro he
      subst he
      exact hnotin (List.mem_toFinset.mp hk)))]
    rw [ih hnd']
    simp

theorem dictOf_lures_nonneg {s : Spec} (hA : Accepted s) (k : Int) :
    0 ≤ dictOf s.lures k :=
  dictOf_nonneg s.lures _ k (fun kv hkv => (hA.2.2.2.1 kv hkv).2)
    (fun _ => le_refl 0)

theorem initTypes_eq (s : Spec) :
    initTypes s = upd (upd (dictOf s.lures) 0 s.fillers) s.n s.targets := by
  unfold initTypes dictOf
  rw [List.foldl_append]
  rfl

theorem keysF_eq (s : Spec) :
    keysF s = insert 0 (insert s.n (s.lures.map Prod.fst).toFinset) := by
  simp [keysF, keyList, List.toFinset_cons]

theorem sum_initTypes_split {s : Spec} (hA : Accepted s) :
    ∑ k ∈ keysF s, initTypes s k
      = s.fillers + s.targets
        + ∑ k ∈ (((s.lures.map Prod.fst).toFinset).erase 0).erase s.n,
            dictOf s.lures k := by
  have hn0 : s.n ≠ 0 := by have := hA.1; omega
  set K := (s.lures.map Prod.fst).toFinset with hK
  have h0mem : (0 : Int) ∈ keysF s := by simp [keysF, keyList]
  rw [← Finset.add_sum_erase _ _ h0mem]
  rw [keysF_eq s, Finset.erase_insert_eq_erase,
    Finset.erase_insert_of_ne hn0]
  have hnmem : s.n ∈ insert s.n (K.erase 0) := Finset.mem_insert_self _ _
  rw [← Finset.add_sum_erase _ _ hnmem]
  rw [Finset.erase_insert_eq_erase]
  have e1 : initTypes s 0 = s.fillers := by
    rw [initTypes_eq, upd_ne _ (fun h => hn0 h.symm), upd_self]
  have e2 : initTypes s s.n = s.targets := by
    rw [initTypes_eq, upd_self]
  rw [e1, e2]
  rw [Finset.sum_congr rfl (fun k hk => by
    obtain ⟨hkn, hk'⟩ := Finset.mem_erase.mp hk
    obtain ⟨hk0, -⟩ := Finset.mem_erase.mp hk'
    rw [initTypes_eq, upd_ne _ hkn, upd_ne _ hk0])]
  ring

theorem seqlength_nonneg {s : Spec} (hA : Accepted s) : 0 ≤ seqlength s := by
  unfold seqlength
  have hsum : 0 ≤ (s.lures.map Prod.snd).sum := List.sum_nonneg (by
    intro x hx
    obtain ⟨kv, hkv, rfl⟩ := List.mem_map.mp hx
    exact (hA.2.2.2.1 kv hkv).2)
  have h1 := hA.2.1
  have h2 := hA.2.2.1
  omega

theorem sum_initTypes_le {s : Spec} (hA : Accepted s)
    (hnd : (s.lures.map Prod.fst).Nodup) :
    ∑ k ∈ keysF s, initTypes s k ≤ seqlength s := by
  rw [sum_initTypes_split hA]
  have hsub : (((s.lures.map Prod.fst).toFinset).erase 0).erase s.n
      ⊆ (s.lures.map Prod.fst).toFinset :=
    Finset.Subset.trans (Finset.erase_subset _ _) (Finset.erase_subset _ _)
  have hle := Finset.sum_le_sum_of_subset_of_nonneg hsub
    (fun k _ _ => dictOf_lures_nonneg hA k)
  rw [sum_dictOf s.lures hnd] at hle
  unfold seqlength
  omega

theorem sum_initTypes_eq {s : Spec} (hA : Accepted s)
    (hnd : (s.lures.map Prod.fst).Nodup)
    (h0 : (0 : Int) ∉ s.lures.map Prod.fst)
    (hn : s.n ∉ s.lures.map Prod.fst) :
    ∑ k ∈ keysF s, initTypes s k = seqlength s := by
  rw [sum_initTypes_split hA]
  have hnK : s.n ∉ (s.lures.map Prod.fst).toFinset := by
    rw [List.mem_toFinset]; exact hn
  have h0K : (0 : Int) ∉ (s.lures.map Prod.fst).toFinset := by
    rw [List.mem_toFinset]; exact h0
  rw [Finset.erase_eq_self.mpr (fun hmem => hnK (Finset.mem_of_mem_erase hmem))]
  rw [Finset.erase_eq_self.mpr h0K]
  rw [sum_dictOf s.lures hnd]
  unfold seqlength
  ring

/-- Claim C1: for every spec accepted by `old.py`'s validation (with the
lure dictionary having distinct keys, as every Python dict does), whenever
the full generation `set_items` returns a sequence, that sequence has
length exactly the derived total length `seqlength` (fillerCount +
targetCount + sum of lure counts), and at that point every remaining
count in the type multiset is zero. -/
theorem claim_C1 (s : Spec) (o : Nat → Nat) (fuel : Nat) (st' : St)
    (hv : oldValidate s = Except.ok ())
    (hnd : (s.lures.map Prod.fst).Nodup)
    (hrun : set_items s o fuel (initSt s) = Except.ok st') :
    (st'.rev.length : Int) = seqlength s ∧
      ∀ k ∈ keyList s, st'.types k = 0 := by
  have hA := accepted_of_oldValidate hv
  obtain ⟨hI, hlen⟩ := set_items_inv hA fuel (initSt s) (initSt_inv hA)
    (by simpa [initSt] using seqlength_nonneg hA) hrun
  refine ⟨hlen, ?_⟩
  have hcons := hI.2.1
  have hpos := hI.1
  have hkeys := types_in_keys hI
  have hsum := @sum_countT (keysF s) st'.rev
    (fun it hit => List.mem_toFinset.mpr (hkeys it hit))
  have hSinit := sum_initTypes_le hA hnd
  have hsum_types : ∑ k ∈ keysF s, st'.types k
      = ∑ k ∈ keysF s, initTypes s k - ∑ k ∈ keysF s, countT st'.rev k := by
    rw [← Finset.sum_sub_distrib]
    exact Finset.sum_congr rfl (fun k _ => by have := hcons k; omega)
  have hzero : ∑ k ∈ keysF s, st'.types k = 0 := by
    have hnn : 0 ≤ ∑ k ∈ keysF s, st'.types k :=
      Finset.sum_nonneg (fun k _ => hpos k)
    omega
  intro k hk
  exact (Finset.sum_eq_zero_iff_of_nonneg (fun k _ => hpos k)).mp hzero k
    (List.mem_toFinset.mpr hk)

/-- Claim C2: in every finished sequence, every position `i` holding a
distance-`d` lure (a type other than filler and other than the n-level)
has `d ≤ i`, copies the stimulus of position `i - d`, and, whenever
`i - nLevel ≥ 0`, differs from the stimulus at position `i - nLevel`. -/
theorem claim_C2 (s : Spec) (o : Nat → Nat) (fuel : Nat) (st' : St)
    (hv : oldValidate s = Except.ok ())
    (hrun : set_items s o fuel (initSt s) = Except.ok st') :
    ∀ (i : Nat) (it : Item), st'.rev.reverse.get? i = some it →
      it.type ≠ 0 → it.type ≠ s.n →
      it.type.toNat ≤ i ∧
      (st'.rev.reverse.get? (i - it.type.toNat)).map Item.stim
        = some it.stim ∧
      (s.n.toNat ≤ i →
        (st'.rev.reverse.get? (i - s.n.toNat)).map Item.stim
          ≠ some it.stim) := by
  have hA := accepted_of_oldValidate hv
  obtain ⟨hI, -⟩ := set_items_inv hA fuel (initSt s) (initSt_inv hA)
    (by simpa [initSt] using seqlength_nonneg hA) hrun
  intro i it hget h0 hn
  obtain ⟨hpos, hlen, hstim, hdiff⟩ := forward_item hA.1 hI hget h0
  exact ⟨hlen, hstim, hdiff hn⟩

/-- Claim C7: in every finished sequence, every position `i` holding a
target (type equal to the n-level) satisfies `nLevel ≤ i` and copies the
stimulus of position `i - nLevel`. -/
theorem claim_C7 (s : Spec) (o : Nat → Nat) (fuel : Nat) (st' : St)
    (hv : oldValidate s = Except.ok ())
    (hrun : set_items s o fuel (initSt s) = Except.ok st') :
    ∀ (i : Nat) (it : Item), st'.rev.reverse.get? i = some it →
      it.type = s.n →
      s.n.toNat ≤ i ∧
      (st'.rev.reverse.get? (i - s.n.toNat)).map Item.stim
        = some it.stim := by
  have hA := accepted_of_oldValidate hv
  obtain ⟨hI, -⟩ := set_items_inv hA fuel (initSt s) (initSt_inv hA)
    (by simpa [initSt] using seqlength_nonneg hA) hrun
  intro i it hget htype
  have h0 : it.type ≠ 0 := by have := hA.1; omega
  obtain ⟨hpos, hlen, hstim, -⟩ := forward_item hA.1 hI hget h0
  rw [htype] at hlen hstim
  exact ⟨hlen, hstim⟩

/-- Claim C8: in every finished sequence the stimuli of the filler
positions are pairwise distinct; the theorem quantifies over the whole
backtracking search, so a filler token returned to the pool on backtrack
is never duplicated by a later draw. -/
theorem claim_C8 (s : Spec) (o : Nat → Nat) (fuel : Nat) (st' : St)
    (hv : oldValidate s = Except.ok ())
    (hrun : set_items s o fuel (initSt s) = Except.ok st') :
    List.Pairwise (fun a b => a ≠ b) (fillerStims st'.rev.reverse) := by
  have hA := accepted_of_oldValidate hv
  obtain ⟨hI, -⟩ := set_items_inv hA fuel (initSt s) (initSt_inv hA)
    (by simpa [initSt] using seqlength_nonneg hA) hrun
  have hnd := fillerStims_nodup hI
  have hrev : fillerStims st'.rev.reverse = (fillerStims st'.rev).reverse := by
    unfold fillerStims
    rw [List.filter_reverse, List.map_reverse]
  rw [hrev]
  exact List.nodup_reverse.mpr hnd

/-- Witness for C1: on `Nback(2, 1, 2, {1: 1})` with the all-zeros oracle
the generation succeeds, and the theorem yields the exact length and the
exhausted type multiset. -/
theorem claim_C1_witness :
    ∃ st', set_items specW (fun _ => 0) 6 (initSt specW) = Except.ok st' ∧
      ((st'.rev.length : Int) = seqlength specW ∧
        ∀ k ∈ keyList specW, st'.types k = 0) := by
  have hok : (set_items specW (fun _ => 0) 6 (initSt specW)).toOption.isSome
      = true := rfl
  cases h : set_items specW (fun _ => 0) 6 (initSt specW) with
  | error e => rw [h] at hok; simp [Except.toOption] at hok
  | ok st' =>
    exact ⟨st', rfl, claim_C1 specW (fun _ => 0) 6 st' rfl (by decide) h⟩

/-- Witness for C2: in the concrete run on `Nback(2, 1, 2, {1: 1})`,
position 3 holds the 1-lure; the theorem yields `stimulus[3] =
stimulus[2]` and `stimulus[3] ≠ stimulus[1]`. -/
theorem claim_C2_witness :
    ∃ st', set_items specW (fun _ => 0) 6 (initSt specW) = Except.ok st' ∧
      st'.rev.reverse.get? 3 = some (Item.mk 1 0 [1]) ∧
      ((1 : Int).toNat ≤ 3 ∧
        (st'.rev.reverse.get? (3 - (1 : Int).toNat)).map Item.stim
          = some 0 ∧
        (specW.n.toNat ≤ 3 →
          (st'.rev.reverse.get? (3 - specW.n.toNat)).map Item.stim
            ≠ some 0)) := by
  have hok : (set_items specW (fun _ => 0) 6 (initSt specW)).toOption.isSome
      = true := rfl
  have hval : (set_items specW (fun _ => 0) 6 (initSt specW)).map
      (fun st => st.rev.reverse.get? 3)
      = Except.ok (some (Item.mk 1 0 [1])) := rfl
  cases h : set_items specW (fun _ => 0) 6 (initSt specW) with
  | error e => rw [h] at hok; simp [Except.toOption] at hok
  | ok st' =>
    rw [h] at hval
    have hget : st'.rev.reverse.get? 3 = some (Item.mk 1 0 [1]) := by
      simpa [Except.map] using hval
    refine ⟨st', rfl, hget, ?_⟩
    exact claim_C2 specW (fun _ => 0) 6 st' rfl h 3 (Item.mk 1 0 [1]) hget
      (by decide) (by decide)

/-- Witness for C7: in the concrete run on `Nback(2, 1, 2, {1: 1})`,
position 2 holds the target; the theorem yields `stimulus[2] =
stimulus[0]`. -/
theorem claim_C7_witness :
    ∃ st', set_items specW (fun _ => 0) 6 (initSt specW) = Except.ok st' ∧
      st'.rev.reverse.get? 2 = some (Item.mk 2 0 [2, 1]) ∧
      (specW.n.toNat ≤ 2 ∧
        (st'.rev.reverse.get? (2 - specW.n.toNat)).map Item.stim
          = some 0) := by
  have hok : (set_items specW (fun _ => 0) 6 (initSt specW)).toOption.isSome
      = true := rfl
  have hval : (set_items specW (fun _ => 0) 6 (initSt specW)).map
      (fun st => st.rev.reverse.get? 2)
      = Except.ok (some (Item.mk 2 0 [2, 1])) := rfl
  cases h : set_items specW (fun _ => 0) 6 (initSt specW) with
  | error e => rw [h] at hok; simp [Except.toOption] at hok
  | ok st' =>
    rw [h] at hval
    have hget : st'.rev.reverse.get? 2 = some (Item.mk 2 0 [2, 1]) := by
      simpa [Except.map] using hval
    refine ⟨st', rfl, hget, ?_⟩
    exact claim_C7 specW (fun _ => 0) 6 st' rfl h 2 (Item.mk 2 0 [2, 1]) hget
      rfl

/-- Witness for C8: in the concrete run on `Nback(2, 1, 2, {1: 1})` the
filler stimuli are `[0, 1]`, pairwise distinct by the theorem. -/
theorem claim_C8_witness :
    ∃ st', set_items specW (fun _ => 0) 6 (initSt specW) = Except.ok st' ∧
      fillerStims st'.rev.reverse = [0, 1] ∧
      List.Pairwise (fun a b => a ≠ b) (fillerStims st'.rev.reverse) := by
  have hok : (set_items specW (fun _ => 0) 6 (initSt specW)).toOption.isSome
      = true := rfl
  have hval : (set_items specW (fun _ => 0) 6 (initSt specW)).map
      (fun st => fillerStims st.rev.reverse) = Except.ok [0, 1] := rfl
  cases h : set_items specW (fun _ => 0) 6 (initSt specW) with
  | error e => rw [h] at hok; simp [Except.toOption] at hok
  | ok st' =>
    rw [h] at hval
    have hfs : fillerStims st'.rev.reverse = [0, 1] := by
      simpa [Except.map] using hval
    exact ⟨st', rfl, hfs, claim_C8 specW (fun _ => 0) 6 st' rfl h⟩

theorem exc_bind_ok {α β : Type} (a : α) (f : α → Except PyErr β) :
    (Except.ok a : Except PyErr α).bind f = f a := rfl

theorem exc_bind_error {α β : Type} (e : PyErr) (f : α → Except PyErr β) :
    (Except.error e : Except PyErr α).bind f = Except.error e := rfl

theorem add_item_R1 (j : Nat) :
    add_item specRepeat j (initSt specRepeat) = Except.ok stR1 := by
  unfold add_item
  rw [show get_types specRepeat (initSt specRepeat).types
      (initSt specRepeat).rev = Except.ok [0] from rfl]
  simp only [exc_ok_bind]
  rw [btLoop_nonempty _ _ _ _ (by simp : ([0] : List Int) ≠ [])]
  simp only [exc_ok_bind]
  rw [show expand (initSt specRepeat).types [0]
      = List.replicate (1 + 1) 0 from rfl]
  rw [pyChoice_replicate]
  simp only [exc_ok_bind]
  rfl

theorem add_item_R2 (j : Nat) :
    add_item specRepeat j stR1 = Except.ok stR2 := by
  unfold add_item
  rw [show get_types specRepeat stR1.types stR1.rev = Except.ok [0] from rfl]
  simp only [exc_ok_bind]
  rw [btLoop_nonempty _ _ _ _ (by simp : ([0] : List Int) ≠ [])]
  simp only [exc_ok_bind]
  rw [show expand stR1.types [0] = List.replicate (0 + 1) 0 from rfl]
  rw [pyChoice_replicate]
  simp only [exc_ok_bind]
  rfl

theorem add_item_R3 (j : Nat) :
    add_item specRepeat j stR2 = Except.error PyErr.typeError := rfl

/-- Claim C3 (code evidence): `Nback(2, 1, 2, {1: 0}, 2)` — an accepted
request with `maxRepeat = 2` — crashes for every oracle: after the two
forced filler placements, `get_types` evaluates `repeat_limit_reached`,
which calls `items_different(range(-max_repeat, 0))` with one argument
where two are required, so the generation raises `TypeError` and no
sequence is produced.  The repeat limit is therefore not enforced for any
accepted `maxRepeat ≥ 2`. -/
theorem claim_C3 :
    oldValidate specRepeat = Except.ok () ∧
    ∀ (o : Nat → Nat) (fuel : Nat),
      set_items specRepeat o (fuel + 3) (initSt specRepeat)
        = Except.error PyErr.typeError := by
  refine ⟨rfl, ?_⟩
  intro o fuel
  rw [show fuel + 3 = (fuel + 2) + 1 from rfl]
  simp only [set_items]
  rw [if_pos (by decide : (((initSt specRepeat).rev.length : Int))
    < seqlength specRepeat)]
  simp only [add_item_R1, exc_bind_ok]
  rw [if_pos (by decide : ((stR1.rev.length : Int)) < seqlength specRepeat)]
  simp only [add_item_R2, exc_bind_ok]
  rw [if_pos (by decide : ((stR2.rev.length : Int)) < seqlength specRepeat)]
  simp only [add_item_R3, exc_bind_error]

theorem add_item_E1 (j : Nat) :
    add_item specExhausted j (initSt specExhausted) = Except.ok stE1 := by
  unfold add_item
  rw [show get_types specExhausted (initSt specExhausted).types
      (initSt specExhausted).rev = Except.ok [0] from rfl]
  simp only [exc_ok_bind]
  rw [btLoop_nonempty _ _ _ _ (by simp : ([0] : List Int) ≠ [])]
  simp only [exc_ok_bind]
  rw [show expand (initSt specExhausted).types [0]
      = List.replicate (0 + 1) 0 from rfl]
  rw [pyChoice_replicate]
  simp only [exc_ok_bind]
  rfl

theorem add_item_E2 (j : Nat) :
    add_item specExhausted j stE1 = Except.error PyErr.systemExit := rfl

/-- Claim C5 (amended): when the type-placement search exhausts every
candidate at every depth, `old.py`'s `add_item` catches the `IndexError`
from backtracking past the first position, prints a message and calls
`exit()` — the caller receives `SystemExit`, not an `UnsatisfiableError`;
and no partial sequence is returned on any failure path: every normal
return of `set_items` on an accepted spec is a complete sequence of
length exactly `seqlength`. -/
theorem claim_C5 :
    (∀ (s : Spec) (o : Nat → Nat) (fuel : Nat) (st' : St),
      oldValidate s = Except.ok () →
      set_items s o fuel (initSt s) = Except.ok st' →
      (st'.rev.length : Int) = seqlength s) ∧
    (∀ (o : Nat → Nat) (fuel : Nat),
      set_items specExhausted o (fuel + 2) (initSt specExhausted)
        = Except.error PyErr.systemExit) := by
  constructor
  · intro s o fuel st' hv hrun
    have hA := accepted_of_oldValidate hv
    exact (set_items_inv hA fuel (initSt s) (initSt_inv hA)
      (by simpa [initSt] using seqlength_nonneg hA) hrun).2
  · intro o fuel
    rw [show fuel + 2 = (fuel + 1) + 1 from rfl]
    simp only [set_items]
    rw [if_pos (by decide : (((initSt specExhausted).rev.length : Int))
      < seqlength specExhausted)]
    simp only [add_item_E1, exc_bind_ok]
    rw [if_pos (by decide : ((stE1.rev.length : Int))
      < seqlength specExhausted)]
    simp only [add_item_E2, exc_bind_error]

/-- Counterexample to C5 as stated: `Nback(2, 2, 1)` (default lures) is
accepted, the search exhausts every candidate at every depth, and the
caller receives `SystemExit` — not the `UnsatisfiableError` the claim
requires. -/
theorem claim_C5_cex :
    oldValidate specExhausted = Except.ok () ∧
    set_items specExhausted (fun _ => 0) 2 (initSt specExhausted)
      = Except.error PyErr.systemExit ∧
    PyErr.systemExit ≠ PyErr.unsatisfiable :=
  ⟨rfl, rfl, by decide⟩

/-- Witness for C5: the exit behaviour at the concrete exhausted spec,
and a complete (never partial) returned sequence on `specW`. -/
theorem claim_C5_witness :
    set_items specExhausted (fun _ => 0) (0 + 2) (initSt specExhausted)
      = Except.error PyErr.systemExit ∧
    ∃ st', set_items specW (fun _ => 0) 6 (initSt specW) = Except.ok st' ∧
      (st'.rev.length : Int) = seqlength specW := by
  refine ⟨claim_C5.2 (fun _ => 0) 0, ?_⟩
  have hok : (set_items specW (fun _ => 0) 6 (initSt specW)).toOption.isSome
      = true := rfl
  cases h : set_items specW (fun _ => 0) 6 (initSt specW) with
  | error e => rw [h] at hok; simp [Except.toOption] at hok
  | ok st' => exact ⟨st', rfl, claim_C5.1 specW (fun _ => 0) 6 st' rfl h⟩

/-- Claim C4 (code evidence): with `maxRepeat = 1` the two
implementations disagree on a request with no distance-1 lures
(`Nback(2, 1, 2, {2: 1}, max_repeat=1)`): `old.py` accepts it, exactly
as the exactly-when rule states, but `nback.py` rejects it with
`ValueError`, because `lures.get(1, 1)` defaults the absent key 1 to
count 1 instead of 0.  `old.py` does reject the two conflict cases:
`nLevel = 1` and a positive distance-1 lure count. -/
theorem claim_C4 :
    (specNoOneLure.max_repeat = 1 ∧ specNoOneLure.n ≠ 1 ∧
      (specNoOneLure.lures.all fun kv => kv.1 != 1) = true) ∧
    oldValidate specNoOneLure = Except.ok () ∧
    nbackValidate specNoOneLure = Except.error PyErr.valueError ∧
    oldValidate ⟨1, 1, 1, [(2, 0)], 1⟩ = Except.error PyErr.valueError ∧
    oldValidate ⟨2, 1, 2, [(1, 1)], 1⟩ = Except.error PyErr.valueError :=
  ⟨⟨rfl, by decide, by decide⟩, rfl, rfl, rfl, rfl⟩

/-- Claim C6 (code evidence): a request whose lure distance equals the
n-level (`Nback(2, 1, 2, {2: 1})`) is accepted by both validators —
neither implementation enforces the documented constraint that the lure
level cannot equal the n-level. -/
theorem claim_C6 :
    specLureEqN.lures = [(specLureEqN.n, 1)] ∧
    oldValidate specLureEqN = Except.ok () ∧
    nbackValidate specLureEqN = Except.ok () :=
  ⟨rfl, rfl, rfl⟩

/-- Claim C9 (code evidence): a request with a lure distance of exactly 0
(`Nback(1, 0, 1, {0: 1})`) is accepted by `old.py` — its check is
`i < 0`, not `i <= 0`, contradicting its own message that lure levels
must be positive — while `nback.py` rejects it; strictly negative
distances are rejected by `old.py`. -/
theorem claim_C9 :
    specZeroLure.lures = [(0, 1)] ∧
    oldValidate specZeroLure = Except.ok () ∧
    nbackValidate specZeroLure = Except.error PyErr.valueError ∧
    oldValidate ⟨1, 0, 1, [(-1, 1)], 0⟩ = Except.error PyErr.valueError :=
  ⟨rfl, rfl, rfl, rfl⟩

theorem inv_to_count {s : Spec} {st : St} (hA : Accepted s)
    (hnd : (s.lures.map Prod.fst).Nodup)
    (h0 : (0 : Int) ∉ s.lures.map Prod.fst)
    (hn : s.n ∉ s.lures.map Prod.fst)
    (hI : InvSt s st) : CountState s st := by
  have hEq := sum_initTypes_eq hA hnd h0 hn
  have hcons := hI.2.1
  have hkeys := types_in_keys hI
  have hsum := @sum_countT (keysF s) st.rev
    (fun it hit => List.mem_toFinset.mpr (hkeys it hit))
  have hsum_types : ∑ k ∈ keysF s, st.types k
      = ∑ k ∈ keysF s, initTypes s k - ∑ k ∈ keysF s, countT st.rev k := by
    rw [← Finset.sum_sub_distrib]
    exact Finset.sum_congr rfl (fun k _ => by have := hcons k; omega)
  exact ⟨fun k _ => hI.1 k, by omega⟩

/-- Claim C10: for an accepted spec whose lure dictionary has distinct
keys, none of them 0 or the n-level, the initial search state satisfies
the counting invariant, and both `add_item` and `backtrack` preserve the
master search invariant together with the counting invariant: every
remaining type count stays nonnegative, and the sum of the remaining
counts plus the number of placed items equals the derived sequence
length, so the search can neither over-place a type nor finish with
unplaced types. -/
theorem claim_C10 (s : Spec) (hv : oldValidate s = Except.ok ())
    (hnd : (s.lures.map Prod.fst).Nodup)
    (h0 : (0 : Int) ∉ s.lures.map Prod.fst)
    (hn : s.n ∉ s.lures.map Prod.fst) :
    (InvSt s (initSt s) ∧ CountState s (initSt s)) ∧
    (∀ (st : St) (o : Nat) (st' : St), InvSt s st →
      add_item s o st = Except.ok st' → InvSt s st' ∧ CountState s st') ∧
    (∀ (st st' : St) (av : List Int), InvSt s st →
      backtrack st = Except.ok (st', av) → InvSt s st' ∧ CountState s st') := by
  have hA := accepted_of_oldValidate hv
  refine ⟨⟨initSt_inv hA, inv_to_count hA hnd h0 hn (initSt_inv hA)⟩, ?_, ?_⟩
  · intro st o st' hI h
    have hI' := (add_item_inv hA hI h).1
    exact ⟨hI', inv_to_count hA hnd h0 hn hI'⟩
  · intro st st' av hI h
    unfold backtrack at h
    cases hrev : st.rev with
    | nil => rw [hrev] at h; cases h
    | cons it rest =>
      rw [hrev] at h
      simp only [Except.ok.injEq, Prod.mk.injEq] at h
      obtain ⟨h1, h2⟩ := h
      have hIc : SearchInv s st.types (it :: rest) st.wordlist := by
        have := hI
        unfold InvSt at this
        rwa [hrev] at this
      have hpop := (pop_inv hIc).1
      have hI' : InvSt s st' := by
        rw [← h1]
        exact hpop
      exact ⟨hI', inv_to_count hA hnd h0 hn hI'⟩

/-- Witness for C10: the theorem at the concrete spec
`Nback(2, 1, 2, {1: 1})`, giving the counting invariant of its initial
state. -/
theorem claim_C10_witness :
    InvSt specW (initSt specW) ∧ CountState specW (initSt specW) :=
  (claim_C10 specW rfl (by decide) (by decide) (by decide)).1
